import Mathlib

/-!
Verification of the EWMRS render/WPC lookup API against its specification.

The JavaScript routes are shallowly embedded: strings are lists of
characters, filesystem paths are lists of path components, and the
filesystem itself is an oracle passed to each route model.  Each route
function additionally returns the list of paths on which a filesystem
operation was attempted, so that "no filesystem access" is expressible.
-/

/-- A JavaScript string, modelled as its list of characters. -/
abbrev Str := List Char

/-- An absolute filesystem path, modelled as its list of components. -/
abbrev FsPath := List Str

/-- Characters of a Lean string literal, for writing `Str` constants. -/
def toL (s : String) : Str := s.data

/-- `hasChar cs c` models JavaScript `cs.includes(c)` for one character. -/
def hasChar : Str → Char → Bool
  | [], _ => false
  | a :: rest, c => (a == c) || hasChar rest c

/-- `hasDotDot cs` models JavaScript `cs.includes('..')`: two adjacent dots. -/
def hasDotDot : Str → Bool
  | a :: b :: rest => ((a == '.') && (b == '.')) || hasDotDot (b :: rest)
  | _ => false

/-- Split a character list into path components at `'/'`; `acc` holds the
pending characters of the current component. -/
def splitComps : Str → Str → List Str
  | [], acc => [acc]
  | c :: rest, acc => if c = '/' then acc :: splitComps rest [] else splitComps rest (acc ++ [c])

/-- Components of a raw path string, dropping empty components, as POSIX
`path.join`/`path.resolve` do when normalizing. -/
def splitPath (cs : Str) : List Str := (splitComps cs []).filter (fun c => !(c == []))

/-- One step of POSIX path normalization: `.` is dropped, `..` pops the last
component (a no-op at the absolute root), anything else is appended. -/
def normComp (acc : List Str) (c : Str) : List Str :=
  if c = ['.'] then acc
  else if c = ['.', '.'] then acc.dropLast
  else acc ++ [c]

/-- Normalize the components of an absolute path. -/
def normAbs (comps : List Str) : List Str := comps.foldl normComp []

/-- Model of Node `path.join(root, seg₁, …, segₙ)` for an absolute `root`:
concatenate all components, then normalize. -/
def joinUnder (root : FsPath) (segs : List Str) : FsPath :=
  normAbs (root ++ (segs.map splitPath).flatten)

/-- Model of Node `path.resolve(root, seg₁, …, segₙ)` for an absolute `root`:
a later argument starting with `'/'` restarts resolution from that argument. -/
def resolveUnder (root : FsPath) (segs : List Str) : FsPath :=
  normAbs (segs.foldl
    (fun acc s => if s.head? = some '/' then splitPath s else acc ++ splitPath s) root)

/-- The containment test of `GET /renders/:product/:file`:
`requested.startsWith(absGuiDir + path.sep) || requested === absGuiDir`,
at the granularity of path components. -/
def withinRoot (root p : FsPath) : Bool := root.isPrefixOf p

/-- A root path component counts as clean when it is nonempty and is neither
`.` nor `..`; a configured data root has only clean components. -/
def cleanComp (c : Str) : Bool := !(c == []) && !(c == ['.']) && !(c == ['.', '.'])

/-- All components of the path are clean (see `cleanComp`). -/
def cleanPath (p : FsPath) : Bool := p.all cleanComp

/-- Minimal JSON value type, for the bodies produced by `JSON.parse`. -/
inductive Json where
  | null : Json
  | bool (b : Bool) : Json
  | num (n : Int) : Json
  | str (s : Str) : Json
  | arr (elems : List Json) : Json
  | obj (fields : List (Str × Json)) : Json

/-- Outcome of a route, abstracting the HTTP responses of the source. -/
inductive RouteRes where
  /-- 400, missing required query parameter. -/
  | missingParam : RouteRes
  /-- 400, parameter failed a security or format check. -/
  | invalidParam : RouteRes
  /-- 404, unknown product or file/data not found. -/
  | notFound : RouteRes
  /-- 500, unexpected I/O or parse failure. -/
  | internalError : RouteRes
  /-- 200, `res.sendFile` of the given path. -/
  | okFile (p : FsPath) : RouteRes
  /-- 200, `res.json` of the given value. -/
  | okJson (j : Json) : RouteRes

/-- Result of `fs.readFile` on one path, as seen by a route. -/
inductive ReadRes where
  /-- The file (or a directory on its path) does not exist (`ENOENT`). -/
  | enoent : ReadRes
  /-- Some other I/O failure (permissions, disk error, …). -/
  | ioErr : ReadRes
  /-- The file exists and has the given contents. -/
  | content (s : Str) : ReadRes

/-- One entry of `fs.readdir(dir, { withFileTypes: true })`. -/
structure DirEnt where
  name : Str
  isFile : Bool

/-- Result of `fs.readdir` on one directory. -/
inductive DirRes where
  /-- The directory does not exist (`ENOENT`). -/
  | enoent : DirRes
  /-- Some other I/O failure. -/
  | ioErr : DirRes
  /-- The directory exists and holds exactly these entries. -/
  | entries (es : List DirEnt) : DirRes

/-- The fields of `fs.stat` used by the source (`mtimeMs`, `size`). -/
structure StatRes where
  mtime : Int
  size : Int

/-- The `PRODUCT_MAPPING` object of `EWMRS/api/routes/renders.js`
(seven entries; this variant has no `VII` entry). -/
def PRODUCT_MAPPING : List (Str × Str) :=
  [ (toL "CompRefQC", toL "MRMS_MergedReflectivityQC")
  , (toL "EchoTop18", toL "MRMS_EchoTop18")
  , (toL "EchoTop30", toL "MRMS_EchoTop30")
  , (toL "RALA", toL "MRMS_ReflectivityAtLowestAltitude")
  , (toL "PrecipRate", toL "MRMS_PrecipRate")
  , (toL "VILDensity", toL "MRMS_VILDensity")
  , (toL "QPE_01H", toL "MRMS_QPE") ]

/-- The `PRODUCT_MAPPING` object of the unnamed router variant
(eight entries, including `VII`). -/
def PRODUCT_MAPPING_V4 : List (Str × Str) :=
  PRODUCT_MAPPING ++ [ (toL "VII", toL "MRMS_VII") ]

/-- The `GUI_SUBDIRS` list of the unnamed standalone-server variant. -/
def GUI_SUBDIRS : List Str :=
  [ toL "RALA", toL "NLDN", toL "EchoTop18", toL "EchoTop30", toL "QPE_01H"
  , toL "PrecipRate", toL "ProbSevere", toL "FLASH", toL "VILDensity", toL "VII"
  , toL "RotationTrack30min", toL "CompRefQC", toL "RhoHV", toL "PrecipFlag"
  , toL "maps" ]

/-- The filename `` `${filePrefix}_${timestamp}.png` `` built by the download
routes. -/
def renderFilename (pfx ts : Str) : Str := pfx ++ '_' :: (ts ++ toL ".png")

/-- The path of `index.json` under a product directory, as built by the fetch
routes: `path.join(path.join(GUI_DIR, product), 'index.json')`. -/
def indexPathOf (root : FsPath) (product : Str) : FsPath :=
  joinUnder (joinUnder root [product]) [toL "index.json"]

/-- `GET /fetch/resources` of `renders.js` (identical to `GET /fetch` of the
unnamed router variant): serve the parsed `index.json` of a product.
`readFile` is the filesystem oracle and `jparse` models `JSON.parse`;
the second result component lists the paths on which a filesystem operation
was attempted. -/
def fetchResourcesRoute (root : FsPath) (readFile : FsPath → ReadRes)
    (jparse : Str → Option Json) (product : Str) : RouteRes × List FsPath :=
  if product = [] then (.missingParam, [])
  else if hasDotDot product || hasChar product '/' || hasChar product '\\' then
    (.invalidParam, [])
  else
    match readFile (indexPathOf root product) with
    | .enoent => (.okJson (.arr []), [indexPathOf root product])
    | .ioErr => (.internalError, [indexPathOf root product])
    | .content s =>
      match jparse s with
      | some v => (.okJson v, [indexPathOf root product])
      | none => (.internalError, [indexPathOf root product])

/-- `GET /download/resources` of `renders.js`: note its security check tests
only for `'..'` on both parameters. `access` is the `fs.access` oracle. -/
def downloadResourcesRoute (root : FsPath) (access : FsPath → Bool)
    (product timestamp : Str) : RouteRes × List FsPath :=
  if product = [] ∨ timestamp = [] then (.missingParam, [])
  else if hasDotDot product || hasDotDot timestamp then (.invalidParam, [])
  else
    match List.lookup product PRODUCT_MAPPING with
    | none => (.notFound, [])
    | some pfx =>
      if access (joinUnder root [product, renderFilename pfx timestamp]) then
        (.okFile (joinUnder root [product, renderFilename pfx timestamp]),
          [joinUnder root [product, renderFilename pfx timestamp]])
      else (.notFound, [joinUnder root [product, renderFilename pfx timestamp]])

/-- `GET /download` of the unnamed router variant: the security check tests
`'..'`, `'/'` and `'\'` on both parameters. -/
def downloadRoute (root : FsPath) (access : FsPath → Bool)
    (product timestamp : Str) : RouteRes × List FsPath :=
  if product = [] ∨ timestamp = [] then (.missingParam, [])
  else if hasDotDot product || hasDotDot timestamp
      || hasChar product '/' || hasChar product '\\'
      || hasChar timestamp '/' || hasChar timestamp '\\' then (.invalidParam, [])
  else
    match List.lookup product PRODUCT_MAPPING_V4 with
    | none => (.notFound, [])
    | some pfx =>
      if access (joinUnder root [product, renderFilename pfx timestamp]) then
        (.okFile (joinUnder root [product, renderFilename pfx timestamp]),
          [joinUnder root [product, renderFilename pfx timestamp]])
      else (.notFound, [joinUnder root [product, renderFilename pfx timestamp]])

/-- `GET /renders/:product/:file` of the unnamed standalone-server variant:
resolves the requested path against the GUI directory and rejects it when it
falls outside that directory. -/
def renderFileRoute (root : FsPath) (access : FsPath → Bool)
    (product file : Str) : RouteRes × List FsPath :=
  if !(GUI_SUBDIRS.contains product) then (.notFound, [])
  else if !(withinRoot root (resolveUnder root [product, file])) then (.invalidParam, [])
  else if access (resolveUnder root [product, file]) then
    (.okFile (resolveUnder root [product, file]), [resolveUnder root [product, file]])
  else (.notFound, [resolveUnder root [product, file]])

/-- The anchored timestamp pattern of `wpc.js`: `^\d{8}-\d{2}z$`. -/
def wpcTsFormat : Str → Bool
  | [d1, d2, d3, d4, d5, d6, d7, d8, dash, h1, h2, zc] =>
    d1.isDigit && d2.isDigit && d3.isDigit && d4.isDigit &&
    d5.isDigit && d6.isDigit && d7.isDigit && d8.isDigit &&
    (dash == '-') && h1.isDigit && h2.isDigit && (zc == 'z')
  | _ => false

/-- The MRMS render timestamp pattern of the specification: `\d{8}-\d{6}`,
anchored. Modelled from the spec: the render routes themselves contain no
format check, so this definition follows section 6 of the specification and
is used only to express that a timestamp is malformed. -/
def mrmsTsFormat : Str → Bool
  | [d1, d2, d3, d4, d5, d6, d7, d8, dash, t1, t2, t3, t4, t5, t6] =>
    d1.isDigit && d2.isDigit && d3.isDigit && d4.isDigit &&
    d5.isDigit && d6.isDigit && d7.isDigit && d8.isDigit &&
    (dash == '-') && t1.isDigit && t2.isDigit && t3.isDigit &&
    t4.isDigit && t5.isDigit && t6.isDigit
  | _ => false

/-- `GET /wpc/surface-analysis/:timestamp` of `wpc.js`: validate the
timestamp format, then read `wpc_sfc_{timestamp}.geojson`. -/
def wpcTimestampRoute (wpcDir : FsPath) (readFile : FsPath → ReadRes)
    (jparse : Str → Option Json) (timestamp : Str) : RouteRes × List FsPath :=
  if !(wpcTsFormat timestamp) then (.invalidParam, [])
  else
    match readFile (joinUnder wpcDir [toL "wpc_sfc_" ++ timestamp ++ toL ".geojson"]) with
    | .enoent => (.notFound, [joinUnder wpcDir [toL "wpc_sfc_" ++ timestamp ++ toL ".geojson"]])
    | .ioErr => (.internalError, [joinUnder wpcDir [toL "wpc_sfc_" ++ timestamp ++ toL ".geojson"]])
    | .content s =>
      match jparse s with
      | some v => (.okJson v, [joinUnder wpcDir [toL "wpc_sfc_" ++ timestamp ++ toL ".geojson"]])
      | none => (.internalError, [joinUnder wpcDir [toL "wpc_sfc_" ++ timestamp ++ toL ".geojson"]])

/-- Try the unanchored regex `wpc_sfc_(\d{8}-\d{2}z)\.geojson` at the start of
`cs`: literal `wpc_sfc_`, then twelve characters in timestamp format, then
literal `.geojson` (anything may follow). -/
def matchAt (cs : Str) : Option Str :=
  if (toL "wpc_sfc_").isPrefixOf cs then
    let rest := cs.drop 8
    let ts := rest.take 12
    if wpcTsFormat ts && (toL ".geojson").isPrefixOf (rest.drop 12) then some ts
    else none
  else none

/-- Leftmost match of the unanchored timestamp-extraction regex of `wpc.js`,
scanning start positions left to right. -/
def extractTs : Str → Option Str
  | [] => none
  | c :: rest =>
    match matchAt (c :: rest) with
    | some ts => some ts
    | none => extractTs rest

/-- The filename filter of `GET /wpc/surface-analysis/timestamps`: a regular
file ending in `.geojson` other than `latest.geojson`. -/
def wpcQualifies (e : DirEnt) : Bool :=
  e.isFile && (toL ".geojson").isSuffixOf e.name && !(e.name == toL "latest.geojson")

/-- The timestamps extracted from a directory listing, in directory order. -/
def extractTimestamps (es : List DirEnt) : List Str :=
  (es.filter wpcQualifies).filterMap (fun e => extractTs e.name)

/-- Lexicographic strict order on character lists (`<` of JS string compare). -/
def lexLt : Str → Str → Bool
  | [], [] => false
  | [], _ :: _ => true
  | _ :: _, [] => false
  | a :: as, b :: bs => if a < b then true else if b < a then false else lexLt as bs

/-- `lexGe a b` holds when `a` sorts at or after `b`; the comparator
`(a, b) => b.localeCompare(a)` of `wpc.js` orders by this relation. -/
def lexGe (a b : Str) : Bool := !(lexLt a b)

/-- Model of `timestamps.sort((a, b) => b.localeCompare(a))`: a descending
lexicographic sort. -/
def sortDesc (l : List Str) : List Str :=
  List.insertionSort (fun a b => lexGe a b = true) l

/-- `GET /wpc/surface-analysis/timestamps` of `wpc.js`: scan the directory,
extract timestamps, sort descending. No deduplication is performed. -/
def wpcTimestampsRoute (readdir : DirRes) : RouteRes :=
  match readdir with
  | .enoent => .okJson (.arr [])
  | .ioErr => .internalError
  | .entries es => .okJson (.arr ((sortDesc (extractTimestamps es)).map Json.str))

/-- Index of the last `'.'` in a basename, for `path.extname`. -/
def lastDotIdx (cs : Str) : Option Nat :=
  (List.range cs.length).foldl
    (fun acc i => if cs.getD i ' ' = '.' then some i else acc) none

/-- Model of Node `path.extname` on an ordinary basename (readdir never
yields `.` or `..`): the suffix from the last dot, or empty when there is no
dot or the only dot is the leading character of a hidden file. -/
def extname (cs : Str) : Str :=
  match lastDotIdx cs with
  | none => []
  | some 0 => []
  | some i => cs.drop i

/-- `path.extname(ent.name).toLowerCase()` of `listFilesInDir`. -/
def extLower (cs : Str) : Str := (extname cs).map Char.toLower

/-- The filter of `listFilesInDir`: a regular file whose lower-cased
extension is not the reserved `.idx`. -/
def isQualifying (e : DirEnt) : Bool :=
  e.isFile && !(extLower e.name == toL ".idx")

/-- One `FileEntry` of the aggregate listing: `{ name, mtime, size }`. -/
structure FileEntry where
  name : Str
  mtime : Int
  size : Int

/-- The loop body of `listFilesInDir`: stat each qualifying entry in
directory order; a failing `stat` throws, so the whole listing aborts
(`none`), matching the catch-all in the source. -/
def collectFiles (stat : FsPath → Option StatRes) (dirPath : FsPath) :
    List DirEnt → Option (List FileEntry)
  | [] => some []
  | e :: rest =>
    if isQualifying e then
      match stat (joinUnder dirPath [e.name]) with
      | none => none
      | some st =>
        match collectFiles stat dirPath rest with
        | none => none
        | some fes => some (⟨e.name, st.mtime, st.size⟩ :: fes)
    else collectFiles stat dirPath rest

/-- `a` sorts at or before `b` under the comparator
`(a, b) => b.mtime - a.mtime` (newest first). -/
def mtimeGe (a b : FileEntry) : Bool := decide (b.mtime ≤ a.mtime)

/-- Model of `files.sort((a, b) => b.mtime - a.mtime)`. -/
def sortByMtime (l : List FileEntry) : List FileEntry :=
  List.insertionSort (fun a b => mtimeGe a b = true) l

/-- `listFilesInDir(dirPath, limit)` of the unnamed server variants: `none`
models the `null` returned when `readdir` (or any `stat`) fails; otherwise
the qualifying files, newest first, truncated to `limit`. -/
def listFilesInDir (readdir : DirRes) (stat : FsPath → Option StatRes)
    (dirPath : FsPath) (limit : Nat) : Option (List FileEntry) :=
  match readdir with
  | .entries es =>
    match collectFiles stat dirPath es with
    | none => none
    | some fes => some ((sortByMtime fes).take limit)
  | _ => none

/-! ### Supporting lemmas about the string and path primitives -/

theorem hasDotDot_tail {a : Char} {l : Str} (h : hasDotDot (a :: l) = false) :
    hasDotDot l = false := by
  cases l with
  | nil => rfl
  | cons b t =>
    simp only [hasDotDot, Bool.or_eq_false_iff] at h
    exact h.2

theorem hasDotDot_append {X Y : Str} (h : hasDotDot (X ++ Y) = false) :
    hasDotDot X = false ∧ hasDotDot Y = false := by
  induction X with
  | nil => exact ⟨rfl, h⟩
  | cons x X' ih =>
    rw [List.cons_append] at h
    obtain ⟨hX', hY⟩ := ih (hasDotDot_tail h)
    refine ⟨?_, hY⟩
    cases X' with
    | nil => rfl
    | cons y T =>
      rw [List.cons_append] at h
      simp only [hasDotDot, Bool.or_eq_false_iff] at h ⊢
      exact ⟨h.1, hX'⟩

theorem splitComps_no_dd : ∀ (cs acc : Str), hasDotDot (acc ++ cs) = false →
    ∀ c ∈ splitComps cs acc, hasDotDot c = false
  | [], acc, h, c, hc => by
    simp only [splitComps, List.mem_singleton] at hc
    subst hc
    simpa using h
  | x :: rest, acc, h, c, hc => by
    simp only [splitComps] at hc
    by_cases hx : x = '/'
    · rw [if_pos hx] at hc
      rcases List.mem_cons.mp hc with rfl | hc
      · exact (hasDotDot_append h).1
      · have h2 : hasDotDot (x :: rest) = false := (hasDotDot_append h).2
        exact splitComps_no_dd rest [] (by simpa using hasDotDot_tail h2) c hc
    · rw [if_neg hx] at hc
      have h' : hasDotDot ((acc ++ [x]) ++ rest) = false := by
        rwa [List.append_assoc, List.singleton_append]
      exact splitComps_no_dd rest (acc ++ [x]) h' c hc

theorem splitComps_ne_nil : ∀ (cs acc : Str), splitComps cs acc ≠ []
  | [], _ => by simp [splitComps]
  | x :: rest, acc => by
    simp only [splitComps]
    split
    · exact List.cons_ne_nil _ _
    · exact splitComps_ne_nil rest (acc ++ [x])

theorem splitComps_append_noSlash : ∀ (X : Str), (∀ c ∈ X, c ≠ '/') →
    ∀ (B acc : Str), splitComps (X ++ B) acc = splitComps B (acc ++ X)
  | [], _, B, acc => by simp
  | x :: X', h, B, acc => by
    have hx : x ≠ '/' := h x (List.mem_cons_self x X')
    rw [List.cons_append]
    simp only [splitComps, if_neg hx]
    rw [splitComps_append_noSlash X' (fun c hc => h c (List.mem_cons_of_mem _ hc)) B
      (acc ++ [x])]
    rw [List.append_assoc, List.singleton_append]

theorem splitComps_noSlash (X : Str) (h : ∀ c ∈ X, c ≠ '/') (acc : Str) :
    splitComps X acc = [acc ++ X] := by
  have := splitComps_append_noSlash X h [] acc
  rw [List.append_nil] at this
  rw [this]
  simp [splitComps]

theorem getLastD_of_ne_nil {α : Type _} {L : List α} (h : L ≠ []) (a d : α) :
    (a :: L).getLastD d = L.getLastD d := by
  cases L with
  | nil => exact absurd rfl h
  | cons b t => simp [List.getLastD_cons]

theorem dropLast_cons_ne_nil {α : Type _} {L : List α} (h : L ≠ []) (a : α) :
    (a :: L).dropLast = a :: L.dropLast := by
  cases L with
  | nil => exact absurd rfl h
  | cons b t => rfl

theorem splitComps_append_split : ∀ (B D acc : Str),
    splitComps (B ++ D) acc =
      (splitComps B acc).dropLast ++ splitComps D ((splitComps B acc).getLastD [])
  | [], D, acc => by simp [splitComps]
  | x :: B', D, acc => by
    by_cases hx : x = '/'
    · subst hx
      rw [List.cons_append]
      simp only [splitComps, ite_true]
      rw [splitComps_append_split B' D []]
      have hne : splitComps B' [] ≠ [] := splitComps_ne_nil B' []
      rw [dropLast_cons_ne_nil hne, getLastD_of_ne_nil hne]
      rw [List.cons_append]
    · rw [List.cons_append]
      simp only [splitComps, if_neg hx]
      exact splitComps_append_split B' D (acc ++ [x])

theorem foldl_normComp_no_dd : ∀ (L : List Str), (∀ c ∈ L, c ≠ ['.', '.']) →
    ∀ acc, List.foldl normComp acc L = acc ++ L.filter (fun c => !(c == ['.']))
  | [], _, acc => by simp
  | c :: L', h, acc => by
    have hc : c ≠ ['.', '.'] := h c (List.mem_cons_self c L')
    have hrest : ∀ x ∈ L', x ≠ ['.', '.'] := fun x hx => h x (List.mem_cons_of_mem _ hx)
    by_cases hdot : c = ['.']
    · subst hdot
      simp only [List.foldl_cons, normComp, ite_true]
      rw [foldl_normComp_no_dd L' hrest acc]
      simp
    · simp only [List.foldl_cons, normComp, if_neg hdot, if_neg hc]
      rw [foldl_normComp_no_dd L' hrest (acc ++ [c])]
      rw [List.append_assoc, List.singleton_append, List.filter_cons_of_pos (by simp [hdot])]

theorem cleanPath_facts {root : FsPath} (h : cleanPath root = true) :
    (∀ c ∈ root, c ≠ ['.', '.']) ∧ (∀ c ∈ root, ¬(c == ['.']) = true) := by
  unfold cleanPath at h
  rw [List.all_eq_true] at h
  constructor
  · intro c hc
    have := h c hc
    unfold cleanComp at this
    simp only [Bool.and_eq_true, bne_iff_ne, Bool.not_eq_true'] at this
    simpa using this.2
  · intro c hc
    have := h c hc
    unfold cleanComp at this
    simp only [Bool.and_eq_true] at this
    simpa using this.1.2

theorem withinRoot_normAbs {root : FsPath} {L : List Str}
    (hroot : cleanPath root = true) (hL : ∀ c ∈ L, c ≠ ['.', '.']) :
    withinRoot root (normAbs (root ++ L)) = true := by
  obtain ⟨h1, h2⟩ := cleanPath_facts hroot
  unfold normAbs
  rw [List.foldl_append]
  have hr : List.foldl normComp [] root = root := by
    rw [foldl_normComp_no_dd root h1 []]
    rw [List.nil_append, List.filter_eq_self.mpr (fun c hc => by
      simpa using h2 c hc)]
  rw [hr, foldl_normComp_no_dd L hL root]
  unfold withinRoot
  exact List.isPrefixOf_iff_prefix.mpr (List.prefix_append _ _)

theorem hasChar_eq_false {cs : Str} {c : Char} (h : hasChar cs c = false) :
    ∀ x ∈ cs, x ≠ c := by
  induction cs with
  | nil => simp
  | cons a rest ih =>
    simp only [hasChar, Bool.or_eq_false_iff, beq_eq_false_iff_ne] at h
    intro x hx
    rcases List.mem_cons.mp hx with rfl | hx
    · exact h.1
    · exact ih h.2 x hx

theorem hasDotDot_cons_of_ne {x : Char} (hx : x ≠ '.') (l : Str) :
    hasDotDot (x :: l) = hasDotDot l := by
  cases l with
  | nil => rfl
  | cons b t =>
    show (((x == '.') && (b == '.')) || hasDotDot (b :: t)) = hasDotDot (b :: t)
    rw [beq_eq_false_iff_ne.mpr hx]
    simp

theorem noDot_append {X : Str} (h : ∀ x ∈ X, x ≠ '.') (Y : Str) :
    hasDotDot (X ++ Y) = hasDotDot Y := by
  induction X with
  | nil => rw [List.nil_append]
  | cons x X' ih =>
    have hx : x ≠ '.' := h x (List.mem_cons_self x X')
    rw [List.cons_append, hasDotDot_cons_of_ne hx,
      ih (fun a ha => h a (List.mem_cons_of_mem _ ha))]

/-! ### Lexicographic order lemmas (for the descending sort of `wpc.js`) -/

theorem lexLt_nil_false : ∀ (a : Str), lexLt a [] = false
  | [] => rfl
  | _ :: _ => rfl

theorem lexLt_asymm : ∀ (a b : Str), lexLt a b = true → lexLt b a = false
  | [], [], h => by simp [lexLt] at h
  | [], _ :: _, _ => rfl
  | _ :: _, [], h => by simp [lexLt] at h
  | x :: xs, y :: ys, h => by
    simp only [lexLt] at h ⊢
    by_cases h1 : x < y
    · rw [if_neg (lt_asymm h1), if_pos h1]
    · rw [if_neg h1] at h
      by_cases h2 : y < x
      · rw [if_pos h2] at h
        exact absurd h (by simp)
      · rw [if_neg h2] at h
        rw [if_neg h2, if_neg h1]
        exact lexLt_asymm xs ys h

theorem lexLt_eq_of_not : ∀ (a b : Str), lexLt a b = false → lexLt b a = false → a = b
  | [], [], _, _ => rfl
  | [], _ :: _, h1, _ => by simp [lexLt] at h1
  | _ :: _, [], _, h2 => by simp [lexLt] at h2
  | x :: xs, y :: ys, h1, h2 => by
    simp only [lexLt] at h1 h2
    by_cases hxy : x < y
    · rw [if_pos hxy] at h1
      exact absurd h1 (by simp)
    · by_cases hyx : y < x
      · rw [if_pos hyx] at h2
        exact absurd h2 (by simp)
      · rw [if_neg hxy, if_neg hyx] at h1
        rw [if_neg hyx, if_neg hxy] at h2
        have hxyeq : x = y := le_antisymm (not_lt.mp hyx) (not_lt.mp hxy)
        rw [hxyeq, lexLt_eq_of_not xs ys h1 h2]

theorem lexLt_trans : ∀ (a b c : Str),
    lexLt a b = true → lexLt b c = true → lexLt a c = true
  | _, [], _, h1, _ => by rw [lexLt_nil_false] at h1; exact absurd h1 (by simp)
  | _, _, [], _, h2 => by rw [lexLt_nil_false] at h2; exact absurd h2 (by simp)
  | [], y :: ys, z :: zs, _, _ => rfl
  | x :: xs, y :: ys, z :: zs, h1, h2 => by
    simp only [lexLt] at h1 h2 ⊢
    by_cases hxy : x < y
    · by_cases hyz : y < z
      · rw [if_pos (lt_trans hxy hyz)]
      · rw [if_neg hyz] at h2
        by_cases hzy : z < y
        · rw [if_pos hzy] at h2
          exact absurd h2 (by simp)
        · have : y = z := le_antisymm (not_lt.mp hzy) (not_lt.mp hyz)
          rw [if_pos (this ▸ hxy)]
    · rw [if_neg hxy] at h1
      by_cases hyx : y < x
      · rw [if_pos hyx] at h1
        exact absurd h1 (by simp)
      · rw [if_neg hyx] at h1
        have hxyeq : x = y := le_antisymm (not_lt.mp hyx) (not_lt.mp hxy)
        subst hxyeq
        by_cases hxz : x < z
        · rw [if_pos hxz]
        · rw [if_neg hxz] at h2 ⊢
          by_cases hzx : z < x
          · rw [if_pos hzx] at h2
            exact absurd h2 (by simp)
          · rw [if_neg hzx] at h2 ⊢
            exact lexLt_trans xs ys zs h1 h2

theorem lexGe_total (a b : Str) : lexGe a b = true ∨ lexGe b a = true := by
  unfold lexGe
  by_cases h : lexLt a b = true
  · right
    rw [lexLt_asymm a b h]
    rfl
  · left
    rw [Bool.not_eq_true] at h
    rw [h]
    rfl

theorem lexGe_trans {a b c : Str} (h1 : lexGe a b = true) (h2 : lexGe b c = true) :
    lexGe a c = true := by
  unfold lexGe at h1 h2 ⊢
  rw [Bool.not_eq_true'] at h1 h2 ⊢
  by_cases hba : lexLt b a = true
  · by_cases hac : lexLt a c = true
    · exact absurd (lexLt_trans b a c hba hac) (by rw [h2]; simp)
    · rwa [Bool.not_eq_true] at hac
  · rw [Bool.not_eq_true] at hba
    rw [lexLt_eq_of_not a b h1 hba]
    exact h2

theorem lexLt_of_ge_of_ne {a b : Str} (h : lexGe a b = true) (hne : a ≠ b) :
    lexLt b a = true := by
  unfold lexGe at h
  rw [Bool.not_eq_true'] at h
  by_cases hba : lexLt b a = true
  · exact hba
  · rw [Bool.not_eq_true] at hba
    exact absurd (lexLt_eq_of_not a b h hba) hne

/-! ### The product mapping keys and prefixes are well-behaved segments -/

/-- A mapping key passes every substring security check, is nonempty and is
neither `.` nor `..`. -/
def goodKey (p : Str) : Bool :=
  !(p == []) && !(hasDotDot p) && !(hasChar p '/') && !(hasChar p '\\')
    && !(p == ['.']) && !(p == ['.', '.'])

/-- A mapping value contains neither dots nor slashes. -/
def goodPfx (s : Str) : Bool := s.all (fun c => !(c == '.') && !(c == '/'))

theorem mapping_renders_good :
    ∀ pr ∈ PRODUCT_MAPPING, goodKey pr.1 = true ∧ goodPfx pr.2 = true := by decide

theorem mapping_v4_good :
    ∀ pr ∈ PRODUCT_MAPPING_V4, goodKey pr.1 = true ∧ goodPfx pr.2 = true := by decide

theorem lookup_mem {α β : Type _} [BEq α] [LawfulBEq α] {a : α} {b : β} :
    ∀ {l : List (α × β)}, List.lookup a l = some b → (a, b) ∈ l := by
  intro l
  induction l with
  | nil => intro h; simp [List.lookup] at h
  | cons kv rest ih =>
    intro h
    obtain ⟨k, v⟩ := kv
    rw [List.lookup] at h
    by_cases hk : (a == k) = true
    · rw [hk] at h
      simp only [Option.some.injEq] at h
      rw [eq_of_beq hk, h]
      exact List.mem_cons_self _ _
    · rw [Bool.not_eq_true] at hk
      rw [hk] at h
      exact List.mem_cons_of_mem _ (ih h)

theorem goodKey_facts {p : Str} (h : goodKey p = true) :
    p ≠ [] ∧ hasDotDot p = false ∧ hasChar p '/' = false ∧
      hasChar p '\\' = false ∧ p ≠ ['.'] ∧ p ≠ ['.', '.'] := by
  unfold goodKey at h
  simp only [Bool.and_eq_true, Bool.not_eq_true', beq_eq_false_iff_ne] at h
  exact ⟨h.1.1.1.1.1, h.1.1.1.1.2, h.1.1.1.2, h.1.1.2, h.1.2, h.2⟩

theorem goodPfx_facts {s : Str} (h : goodPfx s = true) :
    ∀ c ∈ s, c ≠ '.' ∧ c ≠ '/' := by
  unfold goodPfx at h
  rw [List.all_eq_true] at h
  intro c hc
  have := h c hc
  simp only [Bool.and_eq_true, Bool.not_eq_true', beq_eq_false_iff_ne] at this
  exact this

/-! ### Path-shape lemmas for the download routes -/

theorem splitPath_no_dd {s : Str} (h : hasDotDot s = false) :
    ∀ c ∈ splitPath s, c ≠ ['.', '.'] := by
  intro c hc hcc
  have hm : c ∈ splitComps s [] := List.mem_of_mem_filter hc
  have := splitComps_no_dd s [] (by simpa using h) c hm
  rw [hcc] at this
  exact absurd this (by decide)

theorem splitPath_single {s : Str} (h0 : s ≠ []) (h : ∀ c ∈ s, c ≠ '/') :
    splitPath s = [s] := by
  unfold splitPath
  rw [splitComps_noSlash s h [], List.nil_append,
    List.filter_cons_of_pos (by simpa using h0)]
  rfl

/-- Every component of the split of `` `${pfx}_${ts}.png` `` differs from
`..` whenever the prefix has no dots or slashes and the timestamp passed the
`'..'` check — even when the timestamp smuggles in slashes or stray dots. -/
theorem renderFilename_comps {pfx ts : Str} (hpfx : goodPfx pfx = true)
    (hts : hasDotDot ts = false) :
    ∀ c ∈ splitPath (renderFilename pfx ts), c ≠ ['.', '.'] := by
  intro c hc
  have hc' : c ∈ splitComps (renderFilename pfx ts) [] := List.mem_of_mem_filter hc
  have hshape : renderFilename pfx ts = (pfx ++ ['_']) ++ (ts ++ toL ".png") := by
    unfold renderFilename
    simp
  rw [hshape] at hc'
  have hns : ∀ x ∈ pfx ++ ['_'], x ≠ '/' := by
    intro x hx
    rcases List.mem_append.mp hx with hx | hx
    · exact (goodPfx_facts hpfx x hx).2
    · simp only [List.mem_singleton] at hx
      subst hx
      decide
  rw [splitComps_append_noSlash _ hns _ [], List.nil_append,
    splitComps_append_split ts (toL ".png") (pfx ++ ['_'])] at hc'
  rcases List.mem_append.mp hc' with hmem | hmem
  · have hmem2 : c ∈ splitComps ts (pfx ++ ['_']) := List.dropLast_subset _ hmem
    have hnodot : ∀ x ∈ pfx ++ ['_'], x ≠ '.' := by
      intro x hx
      rcases List.mem_append.mp hx with hx | hx
      · exact (goodPfx_facts hpfx x hx).1
      · simp only [List.mem_singleton] at hx
        subst hx
        decide
    have hnd : hasDotDot ((pfx ++ ['_']) ++ ts) = false := by
      rw [noDot_append hnodot ts]
      exact hts
    have := splitComps_no_dd ts (pfx ++ ['_']) hnd c hmem2
    intro hcc
    rw [hcc] at this
    exact absurd this (by decide)
  · rw [splitComps_noSlash _ (by decide) _, List.mem_singleton] at hmem
    subst hmem
    intro hcc
    have hlen := congrArg List.length hcc
    rw [List.length_append] at hlen
    have h4 : (toL ".png").length = 4 := rfl
    rw [h4] at hlen
    simp at hlen

/-- The path built by `path.join(GUI_DIR, product, filename)` stays under the
GUI directory whenever neither segment contains `'..'` (the only check the
`renders.js` download route performs) and the filename prefix is clean. -/
theorem joinUnder_withinRoot {root : FsPath} {product pfx ts : Str}
    (hroot : cleanPath root = true)
    (hp : hasDotDot product = false) (hpfx : goodPfx pfx = true)
    (hts : hasDotDot ts = false) :
    withinRoot root (joinUnder root [product, renderFilename pfx ts]) = true := by
  unfold joinUnder
  have hL : ∀ c ∈ ([product, renderFilename pfx ts].map splitPath).flatten,
      c ≠ ['.', '.'] := by
    intro c hc
    simp only [List.map, List.flatten, List.append_nil] at hc
    rcases List.mem_append.mp hc with hc | hc
    · exact splitPath_no_dd hp c hc
    · exact renderFilename_comps hpfx hts c hc
  exact withinRoot_normAbs hroot hL

/-- Under the full security check the joined path is literally
`root/product/{pfx}_{ts}.png`, one component per segment. -/
theorem joinUnder_exact {root : FsPath} {product pfx ts : Str}
    (hroot : cleanPath root = true)
    (hkey : goodKey product = true) (hpfx : goodPfx pfx = true)
    (hts0 : ts ≠ []) (hts1 : hasDotDot ts = false)
    (hts2 : hasChar ts '/' = false) :
    joinUnder root [product, renderFilename pfx ts] =
      root ++ [product, renderFilename pfx ts] := by
  obtain ⟨hk0, hk1, hk2, _, hk4, hk5⟩ := goodKey_facts hkey
  have hpsingle : splitPath product = [product] :=
    splitPath_single hk0 (hasChar_eq_false hk2)
  have hfns : ∀ c ∈ renderFilename pfx ts, c ≠ '/' := by
    intro c hc
    unfold renderFilename at hc
    rcases List.mem_append.mp hc with hc | hc
    · exact (goodPfx_facts hpfx c hc).2
    · rcases List.mem_cons.mp hc with rfl | hc
      · decide
      · rcases List.mem_append.mp hc with hc | hc
        · exact hasChar_eq_false hts2 c hc
        · exact (by decide : ∀ x ∈ toL ".png", x ≠ '/') c hc
  have hfn0 : renderFilename pfx ts ≠ [] := by
    unfold renderFilename
    intro h
    have := congrArg List.length h
    rw [List.length_append] at this
    simp at this
  have hfsingle : splitPath (renderFilename pfx ts) = [renderFilename pfx ts] :=
    splitPath_single hfn0 hfns
  have hfnlen : 5 ≤ (renderFilename pfx ts).length := by
    have hts_len : 0 < ts.length := List.length_pos.mpr hts0
    unfold renderFilename
    rw [List.length_append, List.length_cons, List.length_append]
    have h4 : (toL ".png").length = 4 := rfl
    rw [h4]
    omega
  have hfdot : renderFilename pfx ts ≠ ['.'] := by
    intro h
    rw [h] at hfnlen
    simp at hfnlen
  have hfdd : renderFilename pfx ts ≠ ['.', '.'] := by
    intro h
    rw [h] at hfnlen
    simp at hfnlen
  unfold joinUnder
  simp only [List.map, hpsingle, hfsingle, List.flatten, List.append_nil]
  unfold normAbs
  obtain ⟨hr1, hr2⟩ := cleanPath_facts hroot
  rw [foldl_normComp_no_dd _ ?hdd []]
  case hdd =>
    intro c hc
    rcases List.mem_append.mp hc with hc | hc
    · exact hr1 c hc
    · rcases List.mem_cons.mp hc with rfl | hc
      · exact hk5
      · rw [List.mem_singleton.mp hc]
        exact hfdd
  rw [List.nil_append, List.filter_eq_self.mpr ?hkeep]
  case hkeep =>
    intro c hc
    rcases List.mem_append.mp hc with hc | hc
    · simpa using hr2 c hc
    · rcases List.mem_cons.mp hc with rfl | hc
      · simpa using hk4
      · rw [List.mem_singleton.mp hc]
        simpa using hfdot
  · simp

/-! ### Route evaluation lemmas -/

theorem fetchResourcesRoute_eval {root : FsPath} {readFile : FsPath → ReadRes}
    {jparse : Str → Option Json} {product : Str}
    (hp0 : product ≠ []) (hp1 : hasDotDot product = false)
    (hp2 : hasChar product '/' = false) (hp3 : hasChar product '\\' = false) :
    fetchResourcesRoute root readFile jparse product =
      match readFile (indexPathOf root product) with
      | .enoent => (.okJson (.arr []), [indexPathOf root product])
      | .ioErr => (.internalError, [indexPathOf root product])
      | .content s =>
        match jparse s with
        | some v => (.okJson v, [indexPathOf root product])
        | none => (.internalError, [indexPathOf root product]) := by
  unfold fetchResourcesRoute
  rw [if_neg hp0, if_neg (by rw [hp1, hp2, hp3]; simp)]

theorem downloadResourcesRoute_eval {root : FsPath} {access : FsPath → Bool}
    {product ts pfx : Str}
    (hlk : List.lookup product PRODUCT_MAPPING = some pfx)
    (hp0 : product ≠ []) (ht0 : ts ≠ [])
    (hp1 : hasDotDot product = false) (ht1 : hasDotDot ts = false) :
    downloadResourcesRoute root access product ts =
      (if access (joinUnder root [product, renderFilename pfx ts]) then
        (.okFile (joinUnder root [product, renderFilename pfx ts]),
          [joinUnder root [product, renderFilename pfx ts]])
      else (.notFound, [joinUnder root [product, renderFilename pfx ts]])) := by
  unfold downloadResourcesRoute
  rw [if_neg (by simp [hp0, ht0]), if_neg (by rw [hp1, ht1]; simp), hlk]

theorem downloadRoute_eval {root : FsPath} {access : FsPath → Bool}
    {product ts pfx : Str}
    (hlk : List.lookup product PRODUCT_MAPPING_V4 = some pfx)
    (hp0 : product ≠ []) (ht0 : ts ≠ [])
    (hsec : (hasDotDot product || hasDotDot ts || hasChar product '/'
      || hasChar product '\\' || hasChar ts '/' || hasChar ts '\\') = false) :
    downloadRoute root access product ts =
      (if access (joinUnder root [product, renderFilename pfx ts]) then
        (.okFile (joinUnder root [product, renderFilename pfx ts]),
          [joinUnder root [product, renderFilename pfx ts]])
      else (.notFound, [joinUnder root [product, renderFilename pfx ts]])) := by
  unfold downloadRoute
  rw [if_neg (by simp [hp0, ht0]), if_neg (by rw [hsec]; simp), hlk]

/-- A representative clean data root used for concrete evaluations. -/
def exRoot : FsPath := [toL "home", toL "EWMRS", toL "gui"]

/-! ### C1 -/

/-- C1 counterexample: the `renders.js` download route accepts a timestamp
containing `'/'` — the result is a filesystem existence check (one access
recorded) answering 404, not an InvalidInput rejection, refuting the claim
that every lookup operation rejects segments containing `'/'`. -/
theorem c1_counterexample :
    hasChar (toL "a/b") '/' = true ∧
    downloadResourcesRoute exRoot (fun _ => false) (toL "CompRefQC") (toL "a/b") =
      (.notFound, [[toL "home", toL "EWMRS", toL "gui", toL "CompRefQC",
        toL "MRMS_MergedReflectivityQC_a", toL "b.png"]]) ∧
    RouteRes.notFound ≠ RouteRes.invalidParam :=
  ⟨rfl, rfl, fun h => RouteRes.noConfusion h⟩

/-- C1 amended: the unnamed-variant download route and the fetch routes
reject a segment containing `'..'`, `'/'` or `'\'` with InvalidInput before
any filesystem access, and a non-empty pair of segments free of those
substrings passes their validation; the `renders.js` download route checks
only `'..'`. -/
theorem c1_amended_validation (root : FsPath) (access : FsPath → Bool)
    (readFile : FsPath → ReadRes) (jparse : Str → Option Json) (p t : Str) :
    (p ≠ [] → t ≠ [] →
      (hasDotDot p || hasDotDot t || hasChar p '/' || hasChar p '\\'
        || hasChar t '/' || hasChar t '\\') = true →
      downloadRoute root access p t = (.invalidParam, [])) ∧
    (p ≠ [] → t ≠ [] →
      (hasDotDot p || hasDotDot t || hasChar p '/' || hasChar p '\\'
        || hasChar t '/' || hasChar t '\\') = false →
      (downloadRoute root access p t).1 ≠ .invalidParam ∧
      (downloadRoute root access p t).1 ≠ .missingParam) ∧
    (p ≠ [] → t ≠ [] → (hasDotDot p || hasDotDot t) = true →
      downloadResourcesRoute root access p t = (.invalidParam, [])) ∧
    (p ≠ [] → (hasDotDot p || hasChar p '/' || hasChar p '\\') = true →
      fetchResourcesRoute root readFile jparse p = (.invalidParam, [])) := by
  refine ⟨?_, ?_, ?_, ?_⟩
  · intro hp0 ht0 hsec
    unfold downloadRoute
    rw [if_neg (by simp [hp0, ht0]), if_pos hsec]
  · intro hp0 ht0 hsec
    cases hl : List.lookup p PRODUCT_MAPPING_V4 with
    | none =>
      unfold downloadRoute
      rw [if_neg (by simp [hp0, ht0]), if_neg (by rw [hsec]; simp), hl]
      exact ⟨fun h => RouteRes.noConfusion h, fun h => RouteRes.noConfusion h⟩
    | some pfx =>
      rw [downloadRoute_eval hl hp0 ht0 hsec]
      split
      · exact ⟨fun h => RouteRes.noConfusion h, fun h => RouteRes.noConfusion h⟩
      · exact ⟨fun h => RouteRes.noConfusion h, fun h => RouteRes.noConfusion h⟩
  · intro hp0 ht0 hsec
    unfold downloadResourcesRoute
    rw [if_neg (by simp [hp0, ht0]), if_pos hsec]
  · intro hp0 hsec
    unfold fetchResourcesRoute
    rw [if_neg hp0, if_pos hsec]

/-- C1 amended witness at concrete inputs. -/
theorem c1_amended_validation_witness :
    downloadRoute exRoot (fun _ => false) (toL "CompRefQC") (toL "a\\b") =
      (.invalidParam, []) ∧
    ((downloadRoute exRoot (fun _ => false) (toL "CompRefQC")
        (toL "20251226-120000")).1 ≠ .invalidParam ∧
      (downloadRoute exRoot (fun _ => false) (toL "CompRefQC")
        (toL "20251226-120000")).1 ≠ .missingParam) ∧
    downloadResourcesRoute exRoot (fun _ => false) (toL "CompRefQC") (toL "..") =
      (.invalidParam, []) ∧
    fetchResourcesRoute exRoot (fun _ => .enoent) (fun _ => none) (toL "a/b") =
      (.invalidParam, []) := by
  refine ⟨?_, ?_, ?_, ?_⟩
  · exact (c1_amended_validation exRoot (fun _ => false) (fun _ => .enoent)
      (fun _ => none) (toL "CompRefQC") (toL "a\\b")).1
      (by decide) (by decide) (by decide)
  · exact (c1_amended_validation exRoot (fun _ => false) (fun _ => .enoent)
      (fun _ => none) (toL "CompRefQC") (toL "20251226-120000")).2.1
      (by decide) (by decide) (by decide)
  · exact (c1_amended_validation exRoot (fun _ => false) (fun _ => .enoent)
      (fun _ => none) (toL "CompRefQC") (toL "..")).2.2.1
      (by decide) (by decide) (by decide)
  · exact (c1_amended_validation exRoot (fun _ => false) (fun _ => .enoent)
      (fun _ => none) (toL "a/b") (toL "x")).2.2.2 (by decide) (by decide)

/-! ### C2 -/

/-- C2: whenever the path formed from the user segments resolves outside the
data root, the route answers without touching the filesystem: the
`/renders/:product/:file` route rejects it via its explicit containment
check (or as an unknown product), and the `renders.js` download route can
only have built an escaping path when a segment contained `'..'`, which its
security check rejected first — in both cases the recorded access list is
empty. -/
theorem c2_outside_root_rejected (root : FsPath) (access : FsPath → Bool)
    (product file ts pfx : Str) (hroot : cleanPath root = true) :
    (withinRoot root (resolveUnder root [product, file]) = false →
      (renderFileRoute root access product file).2 = [] ∧
      ((renderFileRoute root access product file).1 = .notFound ∨
        (renderFileRoute root access product file).1 = .invalidParam)) ∧
    (List.lookup product PRODUCT_MAPPING = some pfx →
      withinRoot root (joinUnder root [product, renderFilename pfx ts]) = false →
      (downloadResourcesRoute root access product ts).2 = [] ∧
      ((downloadResourcesRoute root access product ts).1 = .missingParam ∨
        (downloadResourcesRoute root access product ts).1 = .invalidParam)) := by
  constructor
  · intro hout
    unfold renderFileRoute
    by_cases hm : GUI_SUBDIRS.contains product
    · rw [if_neg (by rw [hm]; simp), if_pos (by rw [hout]; rfl)]
      exact ⟨rfl, Or.inr rfl⟩
    · rw [if_pos (by rw [Bool.not_eq_true] at hm; rw [hm]; rfl)]
      exact ⟨rfl, Or.inl rfl⟩
  · intro hlk hout
    by_cases h0 : product = [] ∨ ts = []
    · unfold downloadResourcesRoute
      rw [if_pos h0]
      exact ⟨rfl, Or.inl rfl⟩
    · push_neg at h0
      by_cases hsec : (hasDotDot product || hasDotDot ts) = true
      · unfold downloadResourcesRoute
        rw [if_neg (by simp [h0.1, h0.2]), if_pos hsec]
        exact ⟨rfl, Or.inr rfl⟩
      · exfalso
        rw [Bool.not_eq_true, Bool.or_eq_false_iff] at hsec
        have hpfx : goodPfx pfx = true := (mapping_renders_good _ (lookup_mem hlk)).2
        have hin := joinUnder_withinRoot hroot hsec.1 hpfx hsec.2
        rw [hout] at hin
        exact Bool.noConfusion hin

/-- C2 witness: a traversal via `../../x` on the resolve route and an
escaping join on the download route are both rejected with no access. -/
theorem c2_outside_root_rejected_witness :
    ((renderFileRoute exRoot (fun _ => true) (toL "CompRefQC") (toL "../../x")).2 = [] ∧
      ((renderFileRoute exRoot (fun _ => true) (toL "CompRefQC") (toL "../../x")).1
          = .notFound ∨
        (renderFileRoute exRoot (fun _ => true) (toL "CompRefQC") (toL "../../x")).1
          = .invalidParam)) ∧
    ((downloadResourcesRoute exRoot (fun _ => true) (toL "CompRefQC")
        (toL "/../../../x")).2 = [] ∧
      ((downloadResourcesRoute exRoot (fun _ => true) (toL "CompRefQC")
          (toL "/../../../x")).1 = .missingParam ∨
        (downloadResourcesRoute exRoot (fun _ => true) (toL "CompRefQC")
          (toL "/../../../x")).1 = .invalidParam)) := by
  have h := c2_outside_root_rejected exRoot (fun _ => true) (toL "CompRefQC")
    (toL "../../x") (toL "/../../../x") (toL "MRMS_MergedReflectivityQC") (by decide)
  exact ⟨h.1 (by decide), h.2 (by decide) (by decide)⟩

/-! ### C3 -/

/-- C3: for a mapped product and a timestamp passing the security checks,
both download routes build exactly the path
`dataRoot / product / {prefix}_{timestamp}.png`; if the file exists the
route sends exactly that file, otherwise it answers NotFound (never an
internal error). -/
theorem c3_resolve_exact_path (root : FsPath) (access : FsPath → Bool)
    (product ts pfx : Str) (hroot : cleanPath root = true)
    (hts0 : ts ≠ []) (hts1 : hasDotDot ts = false)
    (hts2 : hasChar ts '/' = false) (hts3 : hasChar ts '\\' = false) :
    (List.lookup product PRODUCT_MAPPING_V4 = some pfx →
      downloadRoute root access product ts =
        (if access (root ++ [product, renderFilename pfx ts]) then
          (.okFile (root ++ [product, renderFilename pfx ts]),
            [root ++ [product, renderFilename pfx ts]])
        else (.notFound, [root ++ [product, renderFilename pfx ts]]))) ∧
    (List.lookup product PRODUCT_MAPPING = some pfx →
      downloadResourcesRoute root access product ts =
        (if access (root ++ [product, renderFilename pfx ts]) then
          (.okFile (root ++ [product, renderFilename pfx ts]),
            [root ++ [product, renderFilename pfx ts]])
        else (.notFound, [root ++ [product, renderFilename pfx ts]]))) := by
  constructor
  · intro hlk
    have hkey := (mapping_v4_good _ (lookup_mem hlk)).1
    have hpfx := (mapping_v4_good _ (lookup_mem hlk)).2
    obtain ⟨hp0, hp1, hp2, hp3, _, _⟩ := goodKey_facts hkey
    have hex := joinUnder_exact hroot hkey hpfx hts0 hts1 hts2
    rw [downloadRoute_eval hlk hp0 hts0
      (by rw [hp1, hts1, hp2, hp3, hts2, hts3]; rfl), hex]
  · intro hlk
    have hkey := (mapping_renders_good _ (lookup_mem hlk)).1
    have hpfx := (mapping_renders_good _ (lookup_mem hlk)).2
    obtain ⟨hp0, hp1, _, _, _, _⟩ := goodKey_facts hkey
    have hex := joinUnder_exact hroot hkey hpfx hts0 hts1 hts2
    rw [downloadResourcesRoute_eval hlk hp0 hts0 hp1 hts1, hex]

/-- The exact render path of end-to-end scenario 1. -/
def pthW : FsPath :=
  exRoot ++ [toL "CompRefQC", toL "MRMS_MergedReflectivityQC_20251226-120000.png"]

/-- An existence oracle under which exactly `pthW` exists. -/
def accessW : FsPath → Bool := fun p => p == pthW

/-- C3 witness: scenario 1 — resolving `CompRefQC` at `20251226-120000`
yields a handle to exactly the expected file on both routes. -/
theorem c3_resolve_exact_path_witness :
    downloadRoute exRoot accessW (toL "CompRefQC") (toL "20251226-120000") =
      (.okFile pthW, [pthW]) ∧
    downloadResourcesRoute exRoot accessW (toL "CompRefQC") (toL "20251226-120000") =
      (.okFile pthW, [pthW]) := by
  have h := c3_resolve_exact_path exRoot accessW (toL "CompRefQC")
    (toL "20251226-120000") (toL "MRMS_MergedReflectivityQC")
    (by decide) (by decide) (by decide) (by decide) (by decide)
  exact ⟨h.1 (by decide), h.2 (by decide)⟩

/-! ### C4 -/

/-- C4 counterexample: for the unmapped product `NLDN` and the timestamp
`'..'`, resolve answers InvalidInput (400), not NotFound — the security
check runs before the mapping lookup, so the claim "NotFound regardless of
timestamp validity" fails. -/
theorem c4_counterexample :
    List.lookup (toL "NLDN") PRODUCT_MAPPING_V4 = none ∧
    downloadRoute exRoot (fun _ => true) (toL "NLDN") (toL "..") =
      (.invalidParam, []) ∧
    RouteRes.invalidParam ≠ RouteRes.notFound :=
  ⟨rfl, rfl, fun h => RouteRes.noConfusion h⟩

/-- C4 amended: for a product outside the configured mapping, both download
routes answer NotFound for every present timestamp that passes the security
checks; when the timestamp fails the security check the answer is
InvalidInput instead, even for unmapped products. -/
theorem c4_amended_unknown_product (root : FsPath) (access : FsPath → Bool)
    (p t t2 : Str)
    (hp0 : p ≠ []) (hp1 : hasDotDot p = false)
    (hp2 : hasChar p '/' = false) (hp3 : hasChar p '\\' = false)
    (ht0 : t ≠ []) (ht1 : hasDotDot t = false)
    (ht2 : hasChar t '/' = false) (ht3 : hasChar t '\\' = false)
    (hd0 : t2 ≠ []) (hd1 : hasDotDot t2 = true) :
    (List.lookup p PRODUCT_MAPPING_V4 = none →
      downloadRoute root access p t = (.notFound, [])) ∧
    (List.lookup p PRODUCT_MAPPING = none →
      downloadResourcesRoute root access p t = (.notFound, [])) ∧
    downloadRoute root access p t2 = (.invalidParam, []) ∧
    downloadResourcesRoute root access p t2 = (.invalidParam, []) := by
  refine ⟨?_, ?_, ?_, ?_⟩
  · intro hlk
    unfold downloadRoute
    rw [if_neg (by simp [hp0, ht0]),
      if_neg (by rw [hp1, ht1, hp2, hp3, ht2, ht3]; simp), hlk]
  · intro hlk
    unfold downloadResourcesRoute
    rw [if_neg (by simp [hp0, ht0]), if_neg (by rw [hp1, ht1]; simp), hlk]
  · unfold downloadRoute
    rw [if_neg (by simp [hp0, hd0]), if_pos (by rw [hp1, hd1]; rfl)]
  · unfold downloadResourcesRoute
    rw [if_neg (by simp [hp0, hd0]), if_pos (by rw [hp1, hd1]; rfl)]

/-- C4 amended witness: `NLDN` is unmapped — a well-formed timestamp yields
NotFound on both routes, while `'..'` yields InvalidInput. -/
theorem c4_amended_unknown_product_witness :
    downloadRoute exRoot (fun _ => true) (toL "NLDN") (toL "20251226-120000") =
      (.notFound, []) ∧
    downloadResourcesRoute exRoot (fun _ => true) (toL "NLDN")
      (toL "20251226-120000") = (.notFound, []) ∧
    downloadRoute exRoot (fun _ => true) (toL "NLDN") (toL "..") =
      (.invalidParam, []) ∧
    downloadResourcesRoute exRoot (fun _ => true) (toL "NLDN") (toL "..") =
      (.invalidParam, []) := by
  have h := c4_amended_unknown_product exRoot (fun _ => true) (toL "NLDN")
    (toL "20251226-120000") (toL "..") (by decide) (by decide) (by decide)
    (by decide) (by decide) (by decide) (by decide) (by decide) (by decide) (by decide)
  exact ⟨h.1 (by decide), h.2.1 (by decide), h.2.2.1, h.2.2.2⟩

/-! ### C5 -/

/-- C5 counterexample: the `renders.js` download route performs no timestamp
format validation — the malformed timestamp `zzz` passes its security check
and a filesystem existence check is performed on the built path, answering
NotFound rather than InvalidInput. -/
theorem c5_counterexample :
    mrmsTsFormat (toL "zzz") = false ∧
    wpcTsFormat (toL "zzz") = false ∧
    downloadResourcesRoute exRoot (fun _ => false) (toL "CompRefQC") (toL "zzz") =
      (.notFound, [[toL "home", toL "EWMRS", toL "gui", toL "CompRefQC",
        toL "MRMS_MergedReflectivityQC_zzz.png"]]) ∧
    RouteRes.notFound ≠ RouteRes.invalidParam :=
  ⟨rfl, rfl, rfl, fun h => RouteRes.noConfusion h⟩

/-- C5 amended: only the WPC surface-analysis lookup validates the timestamp
format, rejecting any non-matching timestamp with InvalidInput before any
filesystem access; the render download routes perform no format check — for
a mapped product, any timestamp passing the traversal checks reaches the
filesystem existence check (exactly one access on the built path). -/
theorem c5_amended_format_boundary (wpcDir root : FsPath)
    (readFile : FsPath → ReadRes) (jparse : Str → Option Json)
    (access : FsPath → Bool) (ts product pfx : Str)
    (hlk : List.lookup product PRODUCT_MAPPING = some pfx)
    (ht0 : ts ≠ []) (ht1 : hasDotDot ts = false) :
    (wpcTsFormat ts = false →
      wpcTimestampRoute wpcDir readFile jparse ts = (.invalidParam, [])) ∧
    (downloadResourcesRoute root access product ts).2 =
      [joinUnder root [product, renderFilename pfx ts]] := by
  constructor
  · intro hf
    unfold wpcTimestampRoute
    rw [if_pos (by rw [hf]; rfl)]
  · have hkey := (mapping_renders_good _ (lookup_mem hlk)).1
    obtain ⟨hp0, hp1, _, _, _, _⟩ := goodKey_facts hkey
    rw [downloadResourcesRoute_eval hlk hp0 ht0 hp1 ht1]
    split <;> rfl

/-- C5 amended witness: the malformed `zzz` is rejected by the WPC route and
still reaches the filesystem on the render download route. -/
theorem c5_amended_format_boundary_witness :
    wpcTimestampRoute [] (fun _ => .enoent) (fun _ => none) (toL "zzz") =
      (.invalidParam, []) ∧
    (downloadResourcesRoute exRoot (fun _ => false) (toL "CompRefQC")
        (toL "zzz")).2 =
      [joinUnder exRoot [toL "CompRefQC",
        renderFilename (toL "MRMS_MergedReflectivityQC") (toL "zzz")]] := by
  have h := c5_amended_format_boundary [] exRoot (fun _ => .enoent)
    (fun _ => none) (fun _ => false) (toL "zzz") (toL "CompRefQC")
    (toL "MRMS_MergedReflectivityQC") (by decide) (by decide) (by decide)
  exact ⟨h.1 (by decide), h.2⟩

/-! ### C6 -/

/-- C6 counterexample: two distinct qualifying filenames both contain the
substring `wpc_sfc_20250101-00z.geojson` (the extraction regex is not
anchored), so the same timestamp is extracted twice and the route output
contains a duplicate — the scan performs no deduplication, and with a
duplicate present the order cannot be strictly descending. -/
theorem c6_counterexample :
    wpcTimestampsRoute (.entries
      [⟨toL "wpc_sfc_20250101-00z.geojson", true⟩,
       ⟨toL "awpc_sfc_20250101-00z.geojson", true⟩]) =
      .okJson (.arr [.str (toL "20250101-00z"), .str (toL "20250101-00z")]) ∧
    ¬ ([toL "20250101-00z", toL "20250101-00z"] : List Str).Nodup :=
  ⟨rfl, by decide⟩

/-- C6 amended: the directory-scan listing is sorted in descending
lexicographic order (non-strictly); no deduplication is performed, and
whenever the extracted timestamps are pairwise distinct the order is
strictly descending. -/
theorem c6_amended_scan_order (es : List DirEnt) :
    wpcTimestampsRoute (.entries es) =
      .okJson (.arr ((sortDesc (extractTimestamps es)).map Json.str)) ∧
    List.Pairwise (fun a b => lexGe a b = true) (sortDesc (extractTimestamps es)) ∧
    ((extractTimestamps es).Nodup →
      List.Pairwise (fun a b => lexLt b a = true)
        (sortDesc (extractTimestamps es))) := by
  haveI : IsTotal Str (fun a b => lexGe a b = true) := ⟨lexGe_total⟩
  haveI : IsTrans Str (fun a b => lexGe a b = true) :=
    ⟨fun _ _ _ hab hbc => lexGe_trans hab hbc⟩
  refine ⟨rfl, List.sorted_insertionSort _ _, ?_⟩
  intro hnd
  have hsorted : List.Pairwise (fun a b => lexGe a b = true)
      (sortDesc (extractTimestamps es)) := List.sorted_insertionSort _ _
  have hperm := List.perm_insertionSort
    (fun a b => lexGe a b = true) (extractTimestamps es)
  have hnd2 : (sortDesc (extractTimestamps es)).Nodup := hperm.symm.nodup hnd
  exact (hsorted.and hnd2).imp
    (fun hx => lexLt_of_ge_of_ne hx.1 hx.2)

/-- C6 amended witness: a two-file directory with distinct timestamps is
listed newest first, strictly descending. -/
theorem c6_amended_scan_order_witness :
    wpcTimestampsRoute (.entries
      [⟨toL "wpc_sfc_20250102-06z.geojson", true⟩,
       ⟨toL "wpc_sfc_20250103-12z.geojson", true⟩]) =
      .okJson (.arr ((sortDesc (extractTimestamps
        [⟨toL "wpc_sfc_20250102-06z.geojson", true⟩,
         ⟨toL "wpc_sfc_20250103-12z.geojson", true⟩])).map Json.str)) ∧
    List.Pairwise (fun a b => lexLt b a = true)
      (sortDesc (extractTimestamps
        [⟨toL "wpc_sfc_20250102-06z.geojson", true⟩,
         ⟨toL "wpc_sfc_20250103-12z.geojson", true⟩])) := by
  have h := c6_amended_scan_order
    [⟨toL "wpc_sfc_20250102-06z.geojson", true⟩,
     ⟨toL "wpc_sfc_20250103-12z.geojson", true⟩]
  exact ⟨h.1, h.2.2 (by decide)⟩

/-! ### C7 -/

/-- C7: a missing index file or product directory makes the index-strategy
listing answer the empty array, and a missing WPC directory makes the scan
strategy do the same; any other read failure — an I/O error, or a corrupt
index that `JSON.parse` rejects — produces an internal error, a result
distinct from the empty listing. -/
theorem c7_missing_vs_failure (root : FsPath) (readFile : FsPath → ReadRes)
    (jparse : Str → Option Json) (product s : Str)
    (hp0 : product ≠ []) (hp1 : hasDotDot product = false)
    (hp2 : hasChar product '/' = false) (hp3 : hasChar product '\\' = false) :
    (readFile (indexPathOf root product) = .enoent →
      fetchResourcesRoute root readFile jparse product =
        (.okJson (.arr []), [indexPathOf root product])) ∧
    (readFile (indexPathOf root product) = .ioErr →
      fetchResourcesRoute root readFile jparse product =
        (.internalError, [indexPathOf root product])) ∧
    (readFile (indexPathOf root product) = .content s → jparse s = none →
      fetchResourcesRoute root readFile jparse product =
        (.internalError, [indexPathOf root product])) ∧
    wpcTimestampsRoute .enoent = .okJson (.arr []) ∧
    wpcTimestampsRoute .ioErr = .internalError ∧
    RouteRes.internalError ≠ .okJson (.arr []) := by
  refine ⟨?_, ?_, ?_, rfl, rfl, fun h => RouteRes.noConfusion h⟩
  · intro h
    rw [fetchResourcesRoute_eval hp0 hp1 hp2 hp3, h]
  · intro h
    rw [fetchResourcesRoute_eval hp0 hp1 hp2 hp3, h]
  · intro h hj
    rw [fetchResourcesRoute_eval hp0 hp1 hp2 hp3, h]
    simp only [hj]

/-- C7 witness at concrete oracles: missing index for `RALA` gives the empty
array; an I/O error or a corrupt index gives an internal error. -/
theorem c7_missing_vs_failure_witness :
    fetchResourcesRoute exRoot (fun _ => .enoent) (fun _ => none) (toL "RALA") =
      (.okJson (.arr []), [indexPathOf exRoot (toL "RALA")]) ∧
    fetchResourcesRoute exRoot (fun _ => .ioErr) (fun _ => none) (toL "RALA") =
      (.internalError, [indexPathOf exRoot (toL "RALA")]) ∧
    fetchResourcesRoute exRoot (fun _ => .content (toL "not json"))
      (fun _ => none) (toL "RALA") =
      (.internalError, [indexPathOf exRoot (toL "RALA")]) ∧
    wpcTimestampsRoute .enoent = .okJson (.arr []) ∧
    wpcTimestampsRoute .ioErr = .internalError ∧
    RouteRes.internalError ≠ .okJson (.arr []) := by
  have h1 := c7_missing_vs_failure exRoot (fun _ => .enoent) (fun _ => none)
    (toL "RALA") (toL "not json") (by decide) (by decide) (by decide) (by decide)
  have h2 := c7_missing_vs_failure exRoot (fun _ => .ioErr) (fun _ => none)
    (toL "RALA") (toL "not json") (by decide) (by decide) (by decide) (by decide)
  have h3 := c7_missing_vs_failure exRoot (fun _ => .content (toL "not json"))
    (fun _ => none) (toL "RALA") (toL "not json")
    (by decide) (by decide) (by decide) (by decide)
  exact ⟨h1.1 rfl, h2.2.1 rfl, h3.2.2.1 rfl rfl, h1.2.2.2.1, h1.2.2.2.2.1,
    h1.2.2.2.2.2⟩

/-! ### C8 -/

theorem collectFiles_none_qualifying (stat : FsPath → Option StatRes)
    (dirPath : FsPath) : ∀ (es : List DirEnt),
    es.all (fun e => !(isQualifying e)) = true →
    collectFiles stat dirPath es = some []
  | [], _ => rfl
  | e :: rest, h => by
    rw [List.all_cons, Bool.and_eq_true] at h
    have he : isQualifying e = false := by simpa using h.1
    simp only [collectFiles, he]
    exact collectFiles_none_qualifying stat dirPath rest h.2

/-- C8: `listFilesInDir` answers the distinguished `none` (the source's
`null`) for a missing directory, and `some []` for a directory that exists
but has no qualifying files; the two outcomes are distinguishable. -/
theorem c8_absent_vs_empty (stat : FsPath → Option StatRes)
    (dirPath : FsPath) (limit : Nat) (es : List DirEnt) :
    listFilesInDir .enoent stat dirPath limit = none ∧
    (es.all (fun e => !(isQualifying e)) = true →
      listFilesInDir (.entries es) stat dirPath limit = some []) ∧
    (none : Option (List FileEntry)) ≠ some [] := by
  refine ⟨rfl, ?_, by simp⟩
  intro h
  simp only [listFilesInDir]
  rw [collectFiles_none_qualifying stat dirPath es h]
  show some (List.take limit (sortByMtime [])) = some []
  rw [show sortByMtime [] = [] from rfl, List.take_nil]

/-- C8 witness: a missing directory versus a directory holding only an
`.idx` sidecar and a subdirectory. -/
theorem c8_absent_vs_empty_witness :
    listFilesInDir .enoent (fun _ => none) exRoot 5 = none ∧
    listFilesInDir (.entries [⟨toL "data.idx", true⟩, ⟨toL "subdir", false⟩])
      (fun _ => none) exRoot 5 = some [] ∧
    (none : Option (List FileEntry)) ≠ some [] := by
  have h := c8_absent_vs_empty (fun _ => none) exRoot 5
    [⟨toL "data.idx", true⟩, ⟨toL "subdir", false⟩]
  exact ⟨h.1, h.2.1 (by decide), h.2.2⟩

/-! ### C9 -/

theorem collectFiles_mem (stat : FsPath → Option StatRes) (dirPath : FsPath) :
    ∀ (es : List DirEnt) (fes : List FileEntry),
    collectFiles stat dirPath es = some fes →
    ∀ fe ∈ fes, ∃ e ∈ es, e.isFile = true ∧
      extLower e.name ≠ toL ".idx" ∧ fe.name = e.name
  | [], fes, h, fe, hfe => by
    simp only [collectFiles, Option.some.injEq] at h
    subst h
    simp at hfe
  | e :: rest, fes, h, fe, hfe => by
    by_cases hq : isQualifying e = true
    · simp only [collectFiles, hq, if_true] at h
      cases hst : stat (joinUnder dirPath [e.name]) with
      | none => rw [hst] at h; exact absurd h (by simp)
      | some st =>
        rw [hst] at h
        cases hcr : collectFiles stat dirPath rest with
        | none => rw [hcr] at h; exact absurd h (by simp)
        | some fes' =>
          rw [hcr] at h
          simp only [Option.some.injEq] at h
          subst h
          have hq' := hq
          simp only [isQualifying, Bool.and_eq_true, Bool.not_eq_true',
            beq_eq_false_iff_ne] at hq'
          rcases List.mem_cons.mp hfe with rfl | hfe
          · exact ⟨e, List.mem_cons_self e rest, hq'.1, hq'.2, rfl⟩
          · obtain ⟨e', he', hfile, hext, hname⟩ :=
              collectFiles_mem stat dirPath rest fes' hcr fe hfe
            exact ⟨e', List.mem_cons_of_mem _ he', hfile, hext, hname⟩
    · rw [Bool.not_eq_true] at hq
      simp only [collectFiles, hq] at h
      obtain ⟨e', he', hfile, hext, hname⟩ :=
        collectFiles_mem stat dirPath rest fes h fe hfe
      exact ⟨e', List.mem_cons_of_mem _ he', hfile, hext, hname⟩

/-- C9: a successful listing of an existing directory holds at most `limit`
entries, is sorted by descending modification time, contains only regular
files whose extension is not the reserved `.idx`, and equals the first
`limit` entries of the descending sort of all qualifying files. -/
theorem c9_list_newest_first (stat : FsPath → Option StatRes)
    (dirPath : FsPath) (limit : Nat) (es : List DirEnt) (l : List FileEntry)
    (h : listFilesInDir (.entries es) stat dirPath limit = some l) :
    l.length ≤ limit ∧
    List.Pairwise (fun a b => mtimeGe a b = true) l ∧
    (∀ fe ∈ l, ∃ e ∈ es, e.isFile = true ∧
      extLower e.name ≠ toL ".idx" ∧ fe.name = e.name) ∧
    ∃ fes, collectFiles stat dirPath es = some fes ∧
      List.Perm (sortByMtime fes) fes ∧ l = (sortByMtime fes).take limit := by
  haveI : IsTotal FileEntry (fun a b => mtimeGe a b = true) := ⟨fun a b => by
    unfold mtimeGe
    rcases Int.le_total b.mtime a.mtime with hle | hle
    · left; simpa using hle
    · right; simpa using hle⟩
  haveI : IsTrans FileEntry (fun a b => mtimeGe a b = true) :=
    ⟨fun a b c hab hbc => by
      unfold mtimeGe at *
      simp only [decide_eq_true_eq] at *
      omega⟩
  simp only [listFilesInDir] at h
  cases hcf : collectFiles stat dirPath es with
  | none => rw [hcf] at h; exact absurd h (by simp)
  | some fes =>
    rw [hcf] at h
    simp only [Option.some.injEq] at h
    subst h
    refine ⟨?_, ?_, ?_, fes, rfl, List.perm_insertionSort _ _, rfl⟩
    · rw [List.length_take]
      exact min_le_left _ _
    · exact List.Pairwise.sublist (List.take_sublist _ _)
        (List.sorted_insertionSort _ _)
    · intro fe hfe
      have h1 : fe ∈ sortByMtime fes := List.take_subset _ _ hfe
      have h2 : fe ∈ fes := (List.perm_insertionSort _ _).subset h1
      exact collectFiles_mem stat dirPath es fes hcf fe h2

/-- Directory entries of end-to-end scenario 5: five regular files (one of
them an excluded `.idx` sidecar) and a subdirectory. -/
def esW9 : List DirEnt :=
  [⟨toL "f1.png", true⟩, ⟨toL "f2.png", true⟩, ⟨toL "skip.idx", true⟩,
   ⟨toL "f4.png", true⟩, ⟨toL "subdir", false⟩, ⟨toL "f5.png", true⟩]

/-- Stat oracle of scenario 5. -/
def statW : FsPath → Option StatRes := fun p =>
  if p = exRoot ++ [toL "f1.png"] then some ⟨5, 11⟩
  else if p = exRoot ++ [toL "f2.png"] then some ⟨9, 12⟩
  else if p = exRoot ++ [toL "f4.png"] then some ⟨1, 13⟩
  else if p = exRoot ++ [toL "f5.png"] then some ⟨7, 14⟩
  else none

/-- Expected listing of scenario 5 with `limit = 2`: the two most recently
modified qualifying files, newest first. -/
def lW : List FileEntry := [⟨toL "f2.png", 9, 12⟩, ⟨toL "f5.png", 7, 14⟩]

/-- C9 witness: scenario 5 evaluated concretely. -/
theorem c9_list_newest_first_witness :
    lW.length ≤ 2 ∧
    List.Pairwise (fun a b => mtimeGe a b = true) lW ∧
    (∀ fe ∈ lW, ∃ e ∈ esW9, e.isFile = true ∧
      extLower e.name ≠ toL ".idx" ∧ fe.name = e.name) ∧
    ∃ fes, collectFiles statW exRoot esW9 = some fes ∧
      List.Perm (sortByMtime fes) fes ∧ lW = (sortByMtime fes).take 2 :=
  c9_list_newest_first statW exRoot 2 esW9 lW rfl

/-! ### C10 -/

/-- C10: the index-file strategy serves whatever `JSON.parse` produced from
`index.json`, unchanged and unvalidated — for any parsed value `v`
(object, number, string, or arbitrary array) the route answers exactly
`v`. -/
theorem c10_index_verbatim (root : FsPath) (readFile : FsPath → ReadRes)
    (jparse : Str → Option Json) (product s : Str) (v : Json)
    (hp0 : product ≠ []) (hp1 : hasDotDot product = false)
    (hp2 : hasChar product '/' = false) (hp3 : hasChar product '\\' = false)
    (hr : readFile (indexPathOf root product) = .content s)
    (hj : jparse s = some v) :
    fetchResourcesRoute root readFile jparse product =
      (.okJson v, [indexPathOf root product]) := by
  rw [fetchResourcesRoute_eval hp0 hp1 hp2 hp3, hr]
  simp only [hj]

/-- C10 witness: an index file whose JSON document is the bare number `5` is
served verbatim. -/
theorem c10_index_verbatim_witness :
    fetchResourcesRoute exRoot (fun _ => .content (toL "5"))
      (fun _ => some (.num 5)) (toL "RALA") =
      (.okJson (.num 5), [indexPathOf exRoot (toL "RALA")]) :=
  c10_index_verbatim exRoot (fun _ => .content (toL "5"))
    (fun _ => some (.num 5)) (toL "RALA") (toL "5") (.num 5)
    (by decide) (by decide) (by decide) (by decide) rfl rfl
